import Mathlib

/-!
Shallow embedding of three modules of the buck2 repository:

* `app/buck2_http/src/x2p.rs` — `X2PAgentError::from_headers`, the pure
  classification of an HTTP response's headers into an x2pagent error.
* `app/buck2_node/src/self_ref.rs` — `SelfRef::try_new`, construction of the
  self-referential cache.
* `app/buck2_anon_target/src/starlark_defs.rs` — the anon-target methods
  `artifact`, `artifacts`, `anon_target` and `anon_targets`.

Header values are byte sequences, modelled as `List Nat` (each element a byte
value < 256 in intent; the functions are total over all of `Nat`).  Decoded
strings are sequences of Unicode code points, also `List Nat`.
-/

set_option autoImplicit false

/-- A UTF-8 continuation byte: `0x80 ≤ b ≤ 0xBF`. -/
def isCont (b : Nat) : Bool := 0x80 ≤ b && b ≤ 0xBF

/-- Valid first continuation byte of a three-byte UTF-8 sequence, per leading
byte, mirroring the range table of Rust's `run_utf8_validation`. -/
def utf8Valid3First (b c1 : Nat) : Bool :=
  (b == 0xE0 && 0xA0 ≤ c1 && c1 ≤ 0xBF) ||
  (0xE1 ≤ b && b ≤ 0xEC && isCont c1) ||
  (b == 0xED && 0x80 ≤ c1 && c1 ≤ 0x9F) ||
  (0xEE ≤ b && b ≤ 0xEF && isCont c1)

/-- Valid first continuation byte of a four-byte UTF-8 sequence, per leading
byte, mirroring the range table of Rust's `run_utf8_validation`. -/
def utf8Valid4First (b c1 : Nat) : Bool :=
  (b == 0xF0 && 0x90 ≤ c1 && c1 ≤ 0xBF) ||
  (0xF1 ≤ b && b ≤ 0xF3 && isCont c1) ||
  (b == 0xF4 && 0x80 ≤ c1 && c1 ≤ 0x8F)

/-- Embedding of Rust's `String::from_utf8_lossy`: decode a byte sequence to a
sequence of Unicode code points, replacing each maximal ill-formed subsequence
with U+FFFD.  On error after `k` accepted bytes of a multi-byte sequence,
decoding resumes `k` bytes after the leading byte (the failing byte is
re-examined); an incomplete sequence at the end of input yields one U+FFFD. -/
def utf8DecodeLossy : List Nat → List Nat
  | [] => []
  | b :: rest =>
    if b < 0x80 then b :: utf8DecodeLossy rest
    else if 0xC2 ≤ b && b ≤ 0xDF then
      match rest with
      | [] => [0xFFFD]
      | c1 :: rest1 =>
        if isCont c1 then ((b % 0x20) * 0x40 + c1 % 0x40) :: utf8DecodeLossy rest1
        else 0xFFFD :: utf8DecodeLossy (c1 :: rest1)
    else if 0xE0 ≤ b && b ≤ 0xEF then
      match rest with
      | [] => [0xFFFD]
      | c1 :: rest1 =>
        if utf8Valid3First b c1 then
          match rest1 with
          | [] => [0xFFFD]
          | c2 :: rest2 =>
            if isCont c2 then
              ((b % 0x10) * 0x1000 + (c1 % 0x40) * 0x40 + c2 % 0x40) :: utf8DecodeLossy rest2
            else 0xFFFD :: utf8DecodeLossy (c2 :: rest2)
        else 0xFFFD :: utf8DecodeLossy (c1 :: rest1)
    else if 0xF0 ≤ b && b ≤ 0xF4 then
      match rest with
      | [] => [0xFFFD]
      | c1 :: rest1 =>
        if utf8Valid4First b c1 then
          match rest1 with
          | [] => [0xFFFD]
          | c2 :: rest2 =>
            if isCont c2 then
              match rest2 with
              | [] => [0xFFFD]
              | c3 :: rest3 =>
                if isCont c3 then
                  ((b % 8) * 0x40000 + (c1 % 0x40) * 0x1000 + (c2 % 0x40) * 0x40 + c3 % 0x40)
                    :: utf8DecodeLossy rest3
                else 0xFFFD :: utf8DecodeLossy (c3 :: rest3)
            else 0xFFFD :: utf8DecodeLossy (c2 :: rest2)
        else 0xFFFD :: utf8DecodeLossy (c1 :: rest1)
    else 0xFFFD :: utf8DecodeLossy rest

/-- A code point is a Unicode scalar value: below 0x110000 and not a
surrogate. -/
def isUnicodeScalar (c : Nat) : Bool := decide (c < 0x110000 ∧ ¬(0xD800 ≤ c ∧ c ≤ 0xDFFF))

/-- Embedding of `http::HeaderMap` restricted to the single operation
`from_headers` uses: `get(name)` returning the header's byte value, or none
when the header is absent. -/
structure HeaderMap where
  get : String → Option (List Nat)

/-- Embedding of `http::Uri` restricted to the two accessors `from_headers`
uses: `host()` (optional) and `path()`. -/
structure Uri where
  host : Option String
  path : String

/-- Byte value of the string literal `"deny"` compared against the
auth-decision header. -/
def denyBytes : List Nat := [0x64, 0x65, 0x6E, 0x79]

/-- Byte value of the string literal `"FORBIDDEN_HOST"`. -/
def forbiddenHostBytes : List Nat :=
  [0x46, 0x4F, 0x52, 0x42, 0x49, 0x44, 0x44, 0x45, 0x4E, 0x5F, 0x48, 0x4F, 0x53, 0x54]

/-- Byte value of the string literal `"CONNECTION"`. -/
def connectionBytes : List Nat :=
  [0x43, 0x4F, 0x4E, 0x4E, 0x45, 0x43, 0x54, 0x49, 0x4F, 0x4E]

/-- Embedding of the enum `X2PAgentError` from `x2p.rs`.  Messages are decoded
strings (code-point sequences); `Error` is the variant wrapping an
`anyhow::Error` built from the message. -/
inductive X2PAgentError where
  | ForbiddenHost (host : String) (message : List Nat)
  | Connection (host : String) (message : List Nat)
  | AccessDenied (host : String) (path : String)
  | Error (message : List Nat)
deriving DecidableEq, Repr

/-- Embedding of the local helper `to_str` in `from_headers`:
`String::from_utf8_lossy(h.as_bytes()).into_owned()`. -/
def to_str (h : List Nat) : List Nat := utf8DecodeLossy h

/-- Embedding of `X2PAgentError::from_headers`.  The Rust `match` with guards
falls through when a guard fails; that fallthrough is encoded by the if-chain:
the first arm fires only when the auth-decision header is present and equals
`"deny"`, the typed arms only when both an error type and an error message are
present, the `Error` arm whenever any error message is present. -/
def X2PAgentError.from_headers (uri : Uri) (headers : HeaderMap) : Option X2PAgentError :=
  let auth_decision := headers.get "x-fb-validated-x2pauth-decision"
  let error_type := headers.get "x-x2pagentd-error-type"
  let error_msg := headers.get "x-x2pagentd-error-msg"
  let host := (uri.host).getD "<no host>"
  if auth_decision = some denyBytes then
    some (.AccessDenied host uri.path)
  else
    match error_type, error_msg with
    | some typ, some msg =>
      if typ = forbiddenHostBytes then some (.ForbiddenHost host (to_str msg))
      else if typ = connectionBytes then some (.Connection host (to_str msg))
      else some (.Error (to_str msg))
    | none, some msg => some (.Error (to_str msg))
    | _, none => none

/-- The host field of a classification, for the variants that carry one. -/
def X2PAgentError.hostOf : X2PAgentError → Option String
  | .ForbiddenHost host _ => some host
  | .Connection host _ => some host
  | .AccessDenied host _ => some host
  | .Error _ => none

/-- The message field of a classification, for the variants that carry one. -/
def X2PAgentError.messageOf : X2PAgentError → Option (List Nat)
  | .ForbiddenHost _ message => some message
  | .Connection _ message => some message
  | .AccessDenied _ _ => none
  | .Error message => some message

/-- Embedding of `SelfRef<O, D>` from `self_ref.rs`.  The `Arc`, the lifetime
parameter of `D::Data` and the `transmute` are memory-management devices with
no observable value-level content; the struct holds the built data alongside
the owner. -/
structure SelfRef (O D : Type) where
  data : D
  owner : O
deriving DecidableEq, Repr

/-- Embedding of `SelfRef::try_new`: wrap the owner, run `data` on a reference
to it, propagate its error with `?`, and otherwise store the result next to
the owner. -/
def SelfRef.try_new {O D ε : Type} (owner : O) (data : O → Except ε D) :
    Except ε (SelfRef O D) :=
  match data owner with
  | .error e => .error e
  | .ok d => .ok ⟨d, owner⟩

/-- Embedding of the enum `AnonTargetsError` from `starlark_defs.rs`. -/
inductive AnonTargetsError where
  | ArtifactNotFound (name : String)
deriving DecidableEq, Repr

/-- Embedding of `SmallMap::get` on the insertion-ordered artifact map,
modelled as an association list: the value at the first matching key. -/
def smallMapGet {α : Type} (m : List (String × α)) (name : String) : Option α :=
  match m with
  | [] => none
  | (k, v) :: rest => if k = name then some v else smallMapGet rest name

/-- Embedding of `StarlarkPromiseArtifact::new(location, artifact, short_path)`
as called by the anon-target methods (the third argument is always `None`). -/
structure StarlarkPromiseArtifact (α : Type) where
  declaration_location : Option String
  artifact : α
  short_path : Option String
deriving DecidableEq, Repr

namespace StarlarkAnonTarget

/-- Embedding of the `artifact` method of `StarlarkAnonTarget`: look the name
up in the target's artifact map; wrap a hit as a `StarlarkPromiseArtifact`
(with the caller's location and no short path), and report a miss as
`ArtifactNotFound`. -/
def artifact {α : Type} (arts : List (String × α)) (name : String) (loc : Option String) :
    Except AnonTargetsError (StarlarkPromiseArtifact α) :=
  match smallMapGet arts name with
  | some v => .ok ⟨loc, v, none⟩
  | none => .error (.ArtifactNotFound name)

/-- Embedding of the `artifacts` method of `StarlarkAnonTarget`: a dict
mapping each declared artifact name to its wrapped `StarlarkPromiseArtifact`,
built by iterating the artifact map in order. -/
def artifacts {α : Type} (arts : List (String × α)) (loc : Option String) :
    List (String × StarlarkPromiseArtifact α) :=
  arts.map fun kv => (kv.1, ⟨loc, kv.2, none⟩)

end StarlarkAnonTarget

/-- State of one promise: `StarlarkPromise::new_unresolved` creates it
`Unresolved`; settling it records the outcome. -/
inductive PromiseState (ρ : Type) where
  | Unresolved
  | Settled (outcome : ρ)
deriving DecidableEq, Repr

/-- Embedding of `heap.alloc_typed(StarlarkPromise::new_unresolved())`: append
a fresh unresolved promise to the heap and return its handle (its index). -/
def newUnresolved {ρ : Type} (heap : List (PromiseState ρ)) :
    Nat × List (PromiseState ρ) :=
  (heap.length, heap ++ [PromiseState.Unresolved])

/-- Modelled from the spec: the registry's per-key entries, each holding the
promises attached to that key (`AnonTargetsRegistry` lives in
`anon_targets.rs`, which is not part of the given sources; spec section 3,
PendingEntry). -/
structure AnonTargetsRegistry (κ : Type) where
  entries : List (κ × List Nat)

/-- Modelled from the spec: `register_one` attaches the promise to the key's
entry when one exists, and otherwise creates a fresh entry holding just this
promise (spec section 4.2; the implementation in `anon_targets.rs` is not
part of the given sources). -/
def registerOne {κ : Type} [DecidableEq κ] (es : List (κ × List Nat)) (key : κ)
    (pid : Nat) : List (κ × List Nat) :=
  match es with
  | [] => [(key, [pid])]
  | (k, ps) :: rest =>
    if k = key then (k, ps ++ [pid]) :: rest else (k, ps) :: registerOne rest key pid

/-- The promises attached to a key's entry. -/
def lookupEntry {κ : Type} [DecidableEq κ] (es : List (κ × List Nat)) (key : κ) :
    Option (List Nat) :=
  match es with
  | [] => none
  | (k, ps) :: rest => if k = key then some ps else lookupEntry rest key

/-- Analysis-session state seen by `anon_target`: the value heap holding the
promises, and the anon-targets registry. -/
structure AnalysisState (κ ρ : Type) where
  heap : List (PromiseState ρ)
  registry : AnonTargetsRegistry κ

/-- Embedding of the `anon_target` method from `starlark_defs.rs`: allocate a
fresh unresolved promise on the heap, compute the target's key (which can
fail), register the promise under that key, and return the promise.
`computeKey` abstracts `registry.anon_target_key`, whose implementation in
`anon_targets.rs` is not part of the given sources. -/
def anon_target {κ ρ Rule Attrs ε : Type} [DecidableEq κ]
    (computeKey : Rule → Attrs → Except ε κ) (rule : Rule) (attrs : Attrs)
    (st : AnalysisState κ ρ) : Except ε (Nat × AnalysisState κ ρ) :=
  let (pid, heap1) := newUnresolved st.heap
  match computeKey rule attrs with
  | .error e => .error e
  | .ok key => .ok (pid, ⟨heap1, ⟨registerOne st.registry.entries key pid⟩⟩)

/-- Modelled from the spec: the per-request settlement board of a
`register_many` batch — one slot per input index, `none` until that request's
own promise settles (spec section 4.2; `register_many` lives in
`anon_targets.rs`, which is not part of the given sources). -/
def runSettle {ε ρ : Type} (s : List (Option (Except ε ρ))) :
    List (Nat × Except ε ρ) → List (Option (Except ε ρ))
  | [] => s
  | (i, o) :: rest => runSettle (s.set i (some o)) rest

/-- All slots settled: the list of outcomes, else `none`. -/
def collectSettled {α : Type} : List (Option α) → Option (List α)
  | [] => some []
  | none :: _ => none
  | some a :: rest => (collectSettled rest).map (a :: ·)

/-- Modelled from the spec: the aggregate outcome of a batch from its members'
outcomes in input order — the error of the lowest-indexed failed member, else
the ordered sequence of results (spec section 4.2). -/
def firstErrorOrAll {ε ρ : Type} : List (Except ε ρ) → Except ε (List ρ)
  | [] => .ok []
  | .error e :: _ => .error e
  | .ok r :: rest => (firstErrorOrAll rest).map (r :: ·)

/-- Modelled from the spec: the aggregate promise's view of the settlement
board — unsettled (`none`) until every member has settled, then the aggregate
outcome (spec section 4.2: the aggregate resolves only after all N individual
promises have settled). -/
def aggregateState {ε ρ : Type} (s : List (Option (Except ε ρ))) :
    Option (Except ε (List ρ)) :=
  (collectSettled s).map firstErrorOrAll

theorem utf8DecodeLossy_scalar : ∀ (l : List Nat), ∀ c ∈ utf8DecodeLossy l, isUnicodeScalar c = true
  | [] => by
    intro c hc
    simp [utf8DecodeLossy] at hc
  | [b] => by
    intro c hc
    rw [utf8DecodeLossy.eq_2] at hc
    repeat' split at hc
    all_goals simp only [List.mem_cons, List.not_mem_nil, or_false] at hc
    all_goals try obtain rfl | hc := hc
    all_goals try exact utf8DecodeLossy_scalar _ _ hc
    all_goals try simp only [isUnicodeScalar, isCont, utf8Valid3First, utf8Valid4First,
      Bool.and_eq_true, Bool.or_eq_true, decide_eq_true_eq, beq_iff_eq] at *
    all_goals omega
  | [b, c1] => by
    intro c hc
    rw [utf8DecodeLossy.eq_3] at hc
    repeat' split at hc
    all_goals simp only [List.mem_cons, List.not_mem_nil, or_false] at hc
    all_goals try obtain rfl | hc := hc
    all_goals try exact utf8DecodeLossy_scalar _ _ hc
    all_goals try simp only [isUnicodeScalar, isCont, utf8Valid3First, utf8Valid4First,
      Bool.and_eq_true, Bool.or_eq_true, decide_eq_true_eq, beq_iff_eq] at *
    all_goals omega
  | [b, c1, c2] => by
    intro c hc
    rw [utf8DecodeLossy.eq_4] at hc
    repeat' split at hc
    all_goals simp only [List.mem_cons, List.not_mem_nil, or_false] at hc
    all_goals try obtain rfl | hc := hc
    all_goals try exact utf8DecodeLossy_scalar _ _ hc
    all_goals try simp only [isUnicodeScalar, isCont, utf8Valid3First, utf8Valid4First,
      Bool.and_eq_true, Bool.or_eq_true, decide_eq_true_eq, beq_iff_eq] at *
    all_goals omega
  | b :: c1 :: c2 :: c3 :: rest => by
    intro c hc
    rw [utf8DecodeLossy.eq_5] at hc
    repeat' split at hc
    all_goals simp only [List.mem_cons, List.not_mem_nil, or_false] at hc
    all_goals try obtain rfl | hc := hc
    all_goals try exact utf8DecodeLossy_scalar _ _ hc
    all_goals try simp only [isUnicodeScalar, isCont, utf8Valid3First, utf8Valid4First,
      Bool.and_eq_true, Bool.or_eq_true, decide_eq_true_eq, beq_iff_eq] at *
    all_goals omega

/-- C1: a present auth-decision header valued `deny` forces the
`AccessDenied` classification with the URI's host and path, regardless of the
error-type and error-message headers. -/
theorem from_headers_deny_access_denied (uri : Uri) (headers : HeaderMap)
    (h : headers.get "x-fb-validated-x2pauth-decision" = some denyBytes) :
    X2PAgentError.from_headers uri headers =
      some (.AccessDenied ((uri.host).getD "<no host>") uri.path) := by
  simp [X2PAgentError.from_headers, h]

theorem from_headers_deny_access_denied_check :
    X2PAgentError.from_headers ⟨some "h", "/p"⟩
      ⟨fun n =>
        if n = "x-fb-validated-x2pauth-decision" then some denyBytes
        else if n = "x-x2pagentd-error-type" then some forbiddenHostBytes
        else if n = "x-x2pagentd-error-msg" then some [0x6E] else none⟩ =
      some (.AccessDenied "h" "/p") :=
  from_headers_deny_access_denied ⟨some "h", "/p"⟩
    ⟨fun n =>
      if n = "x-fb-validated-x2pauth-decision" then some denyBytes
      else if n = "x-x2pagentd-error-type" then some forbiddenHostBytes
      else if n = "x-x2pagentd-error-msg" then some [0x6E] else none⟩
    (by decide)

/-- C2: when the auth-decision header is absent or not `deny`, the cascade is:
error-type `FORBIDDEN_HOST` with a message gives `ForbiddenHost`; error-type
`CONNECTION` with a message gives `Connection`; any other present message
gives the generic `Error`; no message gives no classification. -/
theorem from_headers_no_deny_cascade (uri : Uri) (headers : HeaderMap)
    (hd : headers.get "x-fb-validated-x2pauth-decision" ≠ some denyBytes) :
    (∀ msg, headers.get "x-x2pagentd-error-type" = some forbiddenHostBytes →
      headers.get "x-x2pagentd-error-msg" = some msg →
      X2PAgentError.from_headers uri headers =
        some (.ForbiddenHost ((uri.host).getD "<no host>") (to_str msg))) ∧
    (∀ msg, headers.get "x-x2pagentd-error-type" = some connectionBytes →
      headers.get "x-x2pagentd-error-msg" = some msg →
      X2PAgentError.from_headers uri headers =
        some (.Connection ((uri.host).getD "<no host>") (to_str msg))) ∧
    (∀ msg, headers.get "x-x2pagentd-error-type" ≠ some forbiddenHostBytes →
      headers.get "x-x2pagentd-error-type" ≠ some connectionBytes →
      headers.get "x-x2pagentd-error-msg" = some msg →
      X2PAgentError.from_headers uri headers = some (.Error (to_str msg))) ∧
    (headers.get "x-x2pagentd-error-msg" = none →
      X2PAgentError.from_headers uri headers = none) := by
  refine ⟨fun msg ht hm => ?_, fun msg ht hm => ?_, fun msg ht hc hm => ?_, fun hm => ?_⟩
  · simp [X2PAgentError.from_headers, hd, ht, hm, forbiddenHostBytes]
  · simp [X2PAgentError.from_headers, hd, ht, hm, forbiddenHostBytes, connectionBytes]
  · rcases he : headers.get "x-x2pagentd-error-type" with _ | typ
    · simp [X2PAgentError.from_headers, hd, he, hm]
    · rw [he] at ht hc
      simp only [ne_eq, Option.some.injEq] at ht hc
      simp [X2PAgentError.from_headers, hd, he, hm, ht, hc]
  · simp [X2PAgentError.from_headers, hd, hm]

theorem from_headers_no_deny_cascade_check :
    X2PAgentError.from_headers ⟨some "h", "/p"⟩
      ⟨fun n =>
        if n = "x-x2pagentd-error-type" then some forbiddenHostBytes
        else if n = "x-x2pagentd-error-msg" then some [0x6E, 0x6F] else none⟩ =
      some (.ForbiddenHost "h" (to_str [0x6E, 0x6F])) :=
  (from_headers_no_deny_cascade ⟨some "h", "/p"⟩
    ⟨fun n =>
      if n = "x-x2pagentd-error-type" then some forbiddenHostBytes
      else if n = "x-x2pagentd-error-msg" then some [0x6E, 0x6F] else none⟩
    (by decide)).1 [0x6E, 0x6F] (by decide) (by decide)

/-- C9: when the URI has no host, any variant of the classification that
carries a host field carries the literal placeholder `<no host>`. -/
theorem from_headers_no_host_placeholder (uri : Uri) (headers : HeaderMap)
    (e : X2PAgentError) (s : String) (h0 : uri.host = none)
    (h1 : X2PAgentError.from_headers uri headers = some e)
    (h2 : X2PAgentError.hostOf e = some s) : s = "<no host>" := by
  simp only [X2PAgentError.from_headers, h0, Option.getD_none] at h1
  split at h1
  all_goals try split at h1
  all_goals repeat' split at h1
  all_goals cases h1
  all_goals simp [X2PAgentError.hostOf] at h2
  all_goals exact h2.symm

theorem from_headers_no_host_placeholder_check :
    "<no host>" = "<no host>" :=
  (from_headers_no_host_placeholder ⟨none, "/p"⟩
    ⟨fun n => if n = "x-fb-validated-x2pauth-decision" then some denyBytes else none⟩
    (.AccessDenied "<no host>" "/p") "<no host>" rfl (by decide) (by decide))

/-- C10: with any error-message header present, classification always
succeeds; the message it carries (when the variant carries one) is the lossy
UTF-8 decoding of the raw bytes; and that decoding maps arbitrary bytes to
Unicode scalar values, never failing. -/
theorem from_headers_total_and_lossy (uri : Uri) (headers : HeaderMap) (msg : List Nat)
    (h : headers.get "x-x2pagentd-error-msg" = some msg) :
    (∃ e, X2PAgentError.from_headers uri headers = some e) ∧
    (∀ e, X2PAgentError.from_headers uri headers = some e →
      X2PAgentError.messageOf e = none ∨
      X2PAgentError.messageOf e = some (utf8DecodeLossy msg)) ∧
    (∀ c ∈ utf8DecodeLossy msg, isUnicodeScalar c = true) := by
  refine ⟨?_, ?_, utf8DecodeLossy_scalar msg⟩
  · simp only [X2PAgentError.from_headers, h]
    split
    · exact ⟨_, rfl⟩
    · rcases he : headers.get "x-x2pagentd-error-type" with _ | typ
      · exact ⟨_, rfl⟩
      · dsimp only
        split <;> [exact ⟨_, rfl⟩; skip]
        split <;> exact ⟨_, rfl⟩
  · intro e h1
    simp only [X2PAgentError.from_headers, h] at h1
    split at h1
    · cases h1
      simp [X2PAgentError.messageOf]
    · rcases he : headers.get "x-x2pagentd-error-type" with _ | typ <;> rw [he] at h1
      · cases h1
        simp [X2PAgentError.messageOf, to_str]
      · dsimp only at h1
        split at h1 <;> [skip; split at h1] <;> cases h1 <;>
          simp [X2PAgentError.messageOf, to_str]

theorem from_headers_total_and_lossy_check :
    ∃ e, X2PAgentError.from_headers ⟨some "h", "/p"⟩
      ⟨fun n => if n = "x-x2pagentd-error-msg" then some [0xFF, 0x61] else none⟩ = some e :=
  (from_headers_total_and_lossy ⟨some "h", "/p"⟩
    ⟨fun n => if n = "x-x2pagentd-error-msg" then some [0xFF, 0x61] else none⟩
    [0xFF, 0x61] (by decide)).1

theorem smallMapGet_none_iff {α : Type} (m : List (String × α)) (name : String) :
    smallMapGet m name = none ↔ name ∉ m.map Prod.fst := by
  induction m with
  | nil => simp [smallMapGet]
  | cons kv rest ih =>
    obtain ⟨k, v⟩ := kv
    by_cases h : k = name
    · subst h
      simp [smallMapGet]
    · have h' : ¬name = k := fun hh => h hh.symm
      simp [smallMapGet, h, ih, h']

/-- C4: looking an artifact up by name succeeds with the wrapped artifact from
the map exactly when the name is a key of the map, and fails with
`ArtifactNotFound` carrying the name exactly when it is absent. -/
theorem artifact_lookup_spec {α : Type} (arts : List (String × α)) (name : String)
    (loc : Option String) :
    (∀ v, smallMapGet arts name = some v →
      StarlarkAnonTarget.artifact arts name loc = .ok ⟨loc, v, none⟩) ∧
    (name ∉ arts.map Prod.fst →
      StarlarkAnonTarget.artifact arts name loc = .error (.ArtifactNotFound name)) ∧
    (name ∈ arts.map Prod.fst →
      ∃ v, smallMapGet arts name = some v ∧
        StarlarkAnonTarget.artifact arts name loc = .ok ⟨loc, v, none⟩) := by
  refine ⟨?_, ?_, ?_⟩
  · intro v hv
    simp [StarlarkAnonTarget.artifact, hv]
  · intro h
    have hn := (smallMapGet_none_iff arts name).mpr h
    simp [StarlarkAnonTarget.artifact, hn]
  · intro h
    rcases hg : smallMapGet arts name with _ | v
    · exact absurd ((smallMapGet_none_iff arts name).mp hg) (by simp [h])
    · exact ⟨v, rfl, by simp [StarlarkAnonTarget.artifact, hg]⟩

theorem artifact_lookup_spec_check :
    StarlarkAnonTarget.artifact [("out", 0)] "out" none = .ok ⟨none, 0, none⟩ ∧
    StarlarkAnonTarget.artifact [("out", 0)] "missing" none =
      .error (.ArtifactNotFound "missing") :=
  ⟨(artifact_lookup_spec [("out", 0)] "out" none).1 0 (by decide),
   (artifact_lookup_spec [("out", 0)] "missing" none).2.1 (by decide)⟩

/-- C8: the dict built by `artifacts` has exactly the declared artifact names
as keys, in order, and each name maps to the wrapped artifact corresponding
to the declared one. -/
theorem artifacts_complete_spec {α : Type} (arts : List (String × α)) (loc : Option String) :
    (StarlarkAnonTarget.artifacts arts loc).map Prod.fst = arts.map Prod.fst ∧
    ∀ name, smallMapGet (StarlarkAnonTarget.artifacts arts loc) name =
      (smallMapGet arts name).map fun v => ⟨loc, v, none⟩ := by
  constructor
  · simp [StarlarkAnonTarget.artifacts]
  · intro name
    induction arts with
    | nil => simp [StarlarkAnonTarget.artifacts, smallMapGet]
    | cons kv rest ih =>
      obtain ⟨k, v⟩ := kv
      simp only [StarlarkAnonTarget.artifacts] at ih ⊢
      by_cases h : k = name <;> simp [smallMapGet, h, ih]

/-- C6: `try_new` propagates the build closure's error unchanged and returns
no cache in that case; it returns a cache exactly when the closure succeeds,
and that cache holds the built data alongside the owner. -/
theorem try_new_spec {O D ε : Type} (owner : O) (build : O → Except ε D) :
    (∀ e, build owner = .error e → SelfRef.try_new owner build = .error e) ∧
    (∀ c, SelfRef.try_new owner build = .ok c →
      ∃ d, build owner = .ok d ∧ c = ⟨d, owner⟩) ∧
    ((∃ c, SelfRef.try_new owner build = .ok c) ↔ ∃ d, build owner = .ok d) := by
  refine ⟨?_, ?_, ?_⟩
  · intro e he
    simp [SelfRef.try_new, he]
  · intro c hc
    rcases hb : build owner with e | d <;> rw [SelfRef.try_new, hb] at hc
    · cases hc
    · cases hc
      exact ⟨d, rfl, rfl⟩
  · constructor
    · rintro ⟨c, hc⟩
      rcases hb : build owner with e | d <;> rw [SelfRef.try_new, hb] at hc
      · cases hc
      · exact ⟨d, rfl⟩
    · rintro ⟨d, hd⟩
      exact ⟨⟨d, owner⟩, by simp [SelfRef.try_new, hd]⟩

theorem try_new_spec_check :
    SelfRef.try_new (7 : Nat) (fun _ => (Except.error "boom" : Except String Nat)) =
      .error "boom" :=
  (try_new_spec 7 (fun _ => Except.error "boom")).1 "boom" rfl

theorem lookupEntry_registerOne {κ : Type} [DecidableEq κ] (es : List (κ × List Nat))
    (key : κ) (pid : Nat) :
    ∃ ps, lookupEntry (registerOne es key pid) key = some ps ∧ pid ∈ ps := by
  induction es with
  | nil => exact ⟨[pid], by simp [registerOne, lookupEntry], by simp⟩
  | cons kv rest ih =>
    obtain ⟨k, ps⟩ := kv
    by_cases h : k = key
    · subst h
      exact ⟨ps ++ [pid], by simp [registerOne, lookupEntry], by simp⟩
    · simpa [registerOne, lookupEntry, h] using ih

/-- C7: a successful `anon_target` call returns a handle to a freshly
allocated promise (its index is one past the old heap, where no promise
existed), the promise is still unresolved in the returned state, and that
same handle is attached to the computed key's entry in the registry. -/
theorem anon_target_spec {κ ρ Rule Attrs ε : Type} [DecidableEq κ]
    (computeKey : Rule → Attrs → Except ε κ) (rule : Rule) (attrs : Attrs)
    (st : AnalysisState κ ρ) (pid : Nat) (st2 : AnalysisState κ ρ)
    (h : anon_target computeKey rule attrs st = .ok (pid, st2)) :
    pid = st.heap.length ∧
    st.heap[pid]? = none ∧
    st2.heap[pid]? = some PromiseState.Unresolved ∧
    ∃ key, computeKey rule attrs = .ok key ∧
      ∃ ps, lookupEntry st2.registry.entries key = some ps ∧ pid ∈ ps := by
  rw [anon_target, newUnresolved] at h
  rcases hk : computeKey rule attrs with e | key <;> rw [hk] at h
  · cases h
  · simp only [Except.ok.injEq, Prod.mk.injEq] at h
    obtain ⟨rfl, rfl⟩ := h
    refine ⟨rfl, List.getElem?_eq_none le_rfl, ?_, key, rfl, lookupEntry_registerOne _ _ _⟩
    exact List.getElem?_concat_length _ _

theorem anon_target_spec_check :
    ∃ key, (fun (_ : Unit) (_ : Unit) => (Except.ok 5 : Except Unit Nat)) () () =
        .ok key ∧
      ∃ ps, lookupEntry
        (AnalysisState.mk ([PromiseState.Unresolved] : List (PromiseState Nat))
          ⟨[((5 : Nat), [0])]⟩).registry.entries key = some ps ∧ 0 ∈ ps :=
  (anon_target_spec (fun _ _ => Except.ok 5) () ()
    ⟨([] : List (PromiseState Nat)), ⟨[]⟩⟩ 0
    ⟨[PromiseState.Unresolved], ⟨[(5, [0])]⟩⟩ rfl).2.2.2

theorem runSettle_length {ε ρ : Type} (events : List (Nat × Except ε ρ)) :
    ∀ s, (runSettle s events).length = s.length := by
  induction events with
  | nil => intro s; rfl
  | cons p rest ih =>
    intro s
    obtain ⟨i, o⟩ := p
    rw [runSettle, ih, List.length_set]

theorem runSettle_not_mem {ε ρ : Type} (events : List (Nat × Except ε ρ)) (i : Nat) :
    ∀ s, i ∉ events.map Prod.fst → (runSettle s events)[i]? = s[i]? := by
  induction events with
  | nil => intro s _; rfl
  | cons p rest ih =>
    intro s hmem
    obtain ⟨j, o⟩ := p
    simp only [List.map_cons, List.mem_cons] at hmem
    push_neg at hmem
    rw [runSettle, ih _ hmem.2, List.getElem?_set_ne (Ne.symm hmem.1)]

theorem runSettle_inv {ε ρ : Type} (outcomes : List (Except ε ρ))
    (events : List (Nat × Except ε ρ)) :
    ∀ s, (∀ p ∈ events, outcomes[p.1]? = some p.2) →
      (∀ (j : Nat) (o : Except ε ρ), s[j]? = some (some o) → outcomes[j]? = some o) →
      ∀ (j : Nat) (o : Except ε ρ), (runSettle s events)[j]? = some (some o) →
        outcomes[j]? = some o := by
  induction events with
  | nil => intro s _ hs; exact hs
  | cons p rest ih =>
    intro s hev hs
    obtain ⟨i, o⟩ := p
    rw [runSettle]
    refine ih _ (fun q hq => hev q (List.mem_cons_of_mem _ hq)) ?_
    intro j o' hj
    rcases eq_or_ne i j with rfl | hne
    · by_cases hlen : i < s.length
      · rw [List.getElem?_set_self hlen] at hj
        cases hj
        exact hev (i, o) (List.mem_cons_self _ _)
      · rw [List.getElem?_eq_none
          (by rw [List.length_set]; exact le_of_not_lt hlen)] at hj
        cases hj
    · rw [List.getElem?_set_ne hne] at hj
      exact hs j o' hj

theorem runSettle_covered {ε ρ : Type} (events : List (Nat × Except ε ρ)) (i : Nat) :
    ∀ s, i ∈ events.map Prod.fst → i < s.length →
      ∃ o, (runSettle s events)[i]? = some (some o) := by
  induction events with
  | nil =>
    intro s h _
    simp at h
  | cons p rest ih =>
    intro s hmem hlen
    obtain ⟨j, o⟩ := p
    rw [runSettle]
    by_cases hr : i ∈ rest.map Prod.fst
    · exact ih _ hr (by rw [List.length_set]; exact hlen)
    · simp only [List.map_cons, List.mem_cons] at hmem
      rcases hmem with rfl | hr2
      · rw [runSettle_not_mem _ _ _ hr]
        exact ⟨o, List.getElem?_set_self hlen⟩
      · exact absurd hr2 hr

theorem collectSettled_eq {α : Type} :
    ∀ (s : List (Option α)) (outs : List α), s.length = outs.length →
      (∀ i : Nat, s[i]? = (outs[i]?).map some) → collectSettled s = some outs := by
  intro s
  induction s with
  | nil =>
    intro outs hlen _
    cases outs
    · rfl
    · simp at hlen
  | cons a s' ih =>
    intro outs hlen hget
    cases outs with
    | nil => simp at hlen
    | cons o outs' =>
      have h0 := hget 0
      simp only [List.getElem?_cons_zero, Option.map_some'] at h0
      cases h0
      rw [collectSettled, ih outs' (by simpa using hlen) (fun i => by simpa using hget (i + 1))]
      rfl

theorem collectSettled_none_of_unsettled {α : Type} :
    ∀ (s : List (Option α)) (j : Nat), s[j]? = some none → collectSettled s = none := by
  intro s
  induction s with
  | nil =>
    intro j hj
    simp at hj
  | cons a s' ih =>
    intro j hj
    cases j with
    | zero =>
      simp only [List.getElem?_cons_zero, Option.some.injEq] at hj
      subst hj
      rfl
    | succ j' =>
      simp only [List.getElem?_cons_succ] at hj
      cases a with
      | none => rfl
      | some a' => rw [collectSettled, ih j' hj]; rfl

theorem firstErrorOrAll_ok {ε ρ : Type} :
    ∀ rs : List ρ, firstErrorOrAll (ε := ε) (rs.map Except.ok) = .ok rs := by
  intro rs
  induction rs with
  | nil => rfl
  | cons r rs' ih => rw [List.map_cons, firstErrorOrAll, ih]; rfl

theorem firstErrorOrAll_error {ε ρ : Type} :
    ∀ (outcomes : List (Except ε ρ)) (i : Nat) (e : ε),
      outcomes[i]? = some (Except.error e) →
      (∀ j, j < i → ∃ r, outcomes[j]? = some (Except.ok r)) →
      firstErrorOrAll outcomes = Except.error e := by
  intro outcomes
  induction outcomes with
  | nil =>
    intro i e hi _
    simp at hi
  | cons o rest ih =>
    intro i e hi hj
    cases i with
    | zero =>
      simp only [List.getElem?_cons_zero, Option.some.injEq] at hi
      subst hi
      rfl
    | succ i' =>
      obtain ⟨r, hr⟩ := hj 0 (Nat.succ_pos _)
      simp only [List.getElem?_cons_zero, Option.some.injEq] at hr
      subst hr
      rw [firstErrorOrAll,
        ih i' e (by simpa using hi)
          (fun j hjlt => by simpa using hj (j + 1) (Nat.succ_lt_succ hjlt))]
      rfl

/-- C3: with each member request's own outcome fixed, and the members'
promises settling in an arbitrary completion order (a permutation of the
indices), every individual promise ends settled with its own outcome; the
aggregate is settled after all events and its value depends only on the
outcomes in input order; it stays unsettled after any proper prefix of the
completion order; when every member succeeds it is the ordered result
sequence, and when some member fails it is the error of the lowest-indexed
failed member. -/
theorem register_many_aggregate_spec {ε ρ : Type} (outcomes : List (Except ε ρ))
    (events : List (Nat × Except ε ρ))
    (hperm : (events.map Prod.fst).Perm (List.range outcomes.length))
    (hout : ∀ p ∈ events, outcomes[p.1]? = some p.2) :
    (∀ i : Nat, (runSettle (List.replicate outcomes.length none) events)[i]? =
      (outcomes[i]?).map some) ∧
    aggregateState (runSettle (List.replicate outcomes.length none) events) =
      some (firstErrorOrAll outcomes) ∧
    (∀ pre suf, events = pre ++ suf → suf ≠ [] →
      aggregateState (runSettle (List.replicate outcomes.length none) pre) = none) ∧
    (∀ rs, outcomes = rs.map Except.ok → firstErrorOrAll outcomes = Except.ok rs) ∧
    (∀ (i : Nat) (e : ε), outcomes[i]? = some (Except.error e) →
      (∀ j, j < i → ∃ r, outcomes[j]? = some (Except.ok r)) →
      firstErrorOrAll outcomes = Except.error e) := by
  have hbase : ∀ (j : Nat) (o : Except ε ρ),
      (List.replicate outcomes.length (none : Option (Except ε ρ)))[j]? = some (some o) →
      outcomes[j]? = some o := by
    intro j o hj
    rw [List.getElem?_replicate] at hj
    split at hj <;> simp at hj
  have hget : ∀ i : Nat, (runSettle (List.replicate outcomes.length none) events)[i]? =
      (outcomes[i]?).map some := by
    intro i
    by_cases hi : i < outcomes.length
    · have hm : i ∈ events.map Prod.fst := hperm.mem_iff.mpr (List.mem_range.mpr hi)
      obtain ⟨o, ho⟩ :=
        runSettle_covered events i (List.replicate outcomes.length none) hm
          (by rw [List.length_replicate]; exact hi)
      have hoc := runSettle_inv outcomes events (List.replicate outcomes.length none)
        hout hbase i o ho
      rw [ho, hoc]
      rfl
    · have h1 : (runSettle (List.replicate outcomes.length none) events).length ≤ i := by
        rw [runSettle_length, List.length_replicate]
        exact le_of_not_lt hi
      rw [List.getElem?_eq_none h1, List.getElem?_eq_none (le_of_not_lt hi)]
      rfl
  refine ⟨hget, ?_, ?_, ?_, firstErrorOrAll_error outcomes⟩
  · rw [aggregateState,
      collectSettled_eq _ outcomes (by rw [runSettle_length, List.length_replicate]) hget]
    rfl
  · intro pre suf heq hne
    obtain ⟨⟨i, o⟩, suf', rfl⟩ : ∃ p suf', suf = p :: suf' := by
      cases suf
      · exact absurd rfl hne
      · exact ⟨_, _, rfl⟩
    subst heq
    have hm : i ∈ (pre ++ (i, o) :: suf').map Prod.fst := by simp
    have hi : i < outcomes.length := List.mem_range.mp (hperm.mem_iff.mp hm)
    have hnodup : ((pre ++ (i, o) :: suf').map Prod.fst).Nodup :=
      hperm.nodup_iff.mpr (List.nodup_range _)
    rw [List.map_append] at hnodup
    have hnp : i ∉ pre.map Prod.fst := by
      intro hip
      exact (List.nodup_append.mp hnodup).2.2 hip (by simp)
    have hval : (runSettle (List.replicate outcomes.length none) pre)[i]? = some none := by
      rw [runSettle_not_mem _ _ _ hnp, List.getElem?_replicate, if_pos hi]
    rw [aggregateState, collectSettled_none_of_unsettled _ i hval]
    rfl
  · intro rs h
    rw [h]
    exact firstErrorOrAll_ok rs

theorem register_many_aggregate_spec_check :
    aggregateState (runSettle
        (List.replicate 3 (none : Option (Except String Nat)))
        [(2, Except.ok 3), (0, Except.ok 1), (1, Except.error "boom")]) =
      some (firstErrorOrAll [Except.ok 1, Except.error "boom", Except.ok 3]) :=
  (register_many_aggregate_spec
    [Except.ok 1, Except.error "boom", Except.ok 3]
    [(2, Except.ok 3), (0, Except.ok 1), (1, Except.error "boom")]
    (by decide)
    (by
      intro p hp
      simp only [List.mem_cons, List.not_mem_nil, or_false] at hp
      rcases hp with rfl | rfl | rfl <;> rfl)).2.1

/-- Corner cases of the lossy decoder: a stray invalid byte becomes U+FFFD
and decoding continues; a well-formed three-byte sequence decodes to its code
point; a surrogate encoding is rejected byte-by-byte. -/
theorem utf8DecodeLossy_corner_cases :
    utf8DecodeLossy [0xFF, 0x61] = [0xFFFD, 0x61] ∧
    utf8DecodeLossy [0xE2, 0x82, 0xAC] = [0x20AC] ∧
    utf8DecodeLossy [0xED, 0xA0, 0x80] = [0xFFFD, 0xFFFD, 0xFFFD] := by
  decide
